import Mathlib

/-! # Verification of the braid-llm-kit autofix tool

Shallow embedding of `tools/llm_autofix.py`: the edit applier `apply_fixes`
and the fix-loop controller `check_and_fix`, with the external formatter and
validator abstracted as functions of the data they are given.  Buffers are
lists of characters; Python slice semantics (clamping, negative indices) are
modelled explicitly. -/

namespace LlmAutofix

/-- A text buffer (Python `str`), as its list of characters. -/
abbrev Buf := List Char

/-- Python slice-index normalisation for `s[:i]` and `s[i:]` on a sequence of
length `n`: a non-negative index is clamped above at `n`, a negative index
counts back from the end and is clamped below at `0`. -/
def pyIndex (n : Nat) (i : Int) : Nat :=
  if 0 ≤ i then min i.toNat n else n - (-i).toNat

/-- The splice `src[:pos] + text + src[pos:]` performed by `apply_fixes`. -/
def pysplice (s : Buf) (i : Int) (t : Buf) : Buf :=
  s.take (pyIndex s.length i) ++ t ++ s.drop (pyIndex s.length i)

/-- The `"edit"` object attached to a fix: optional `"insert"` and `"at"`
entries (`int(edit["at"])` is modelled by the field already carrying an
integer). -/
structure EditObj where
  insert : Option Buf
  at_ : Option Int
  deriving DecidableEq

/-- One element of a diagnostic record's `"fixes"` list.  A missing `"edit"`
key (`f.get("edit", {})` returning `{}`) is modelled as `none`. -/
structure Fix where
  edit : Option EditObj
  deriving DecidableEq

/-- The filter in `apply_fixes`: a fix contributes the pair
`(int(edit["at"]), edit["insert"])` exactly when its edit object carries both
an `"insert"` and an `"at"` entry. -/
def getInsert (f : Fix) : Option (Int × Buf) :=
  match f.edit with
  | none => none
  | some e =>
    match e.insert, e.at_ with
    | some t, some p => some (p, t)
    | _, _ => none

/-- Insertion into a position-descending list that keeps the new element in
front of position ties; `sortDesc` below is then the stable descending sort
`inserts.sort(key=lambda x: x[0], reverse=True)` (Python's sort is stable,
and `reverse=True` preserves the original order of equal keys). -/
def insDesc (x : Int × Buf) : List (Int × Buf) → List (Int × Buf)
  | [] => [x]
  | y :: ys => if y.1 ≤ x.1 then x :: y :: ys else y :: insDesc x ys

/-- Stable sort by position, descending. -/
def sortDesc : List (Int × Buf) → List (Int × Buf)
  | [] => []
  | x :: xs => insDesc x (sortDesc xs)

/-- `apply_fixes(src, fixes)`: collect the `(at, insert)` pairs, sort them by
position in descending order, then splice each in turn into the current
buffer. -/
def apply_fixes (src : Buf) (fixes : List Fix) : Buf :=
  (sortDesc (fixes.filterMap getInsert)).foldl (fun s pt => pysplice s pt.1 pt.2) src

/-- What one line of validator stdout does under `json.loads` followed by
`d.get("fixes", [])`: the line fails to decode (`json.JSONDecodeError`, which
the loop catches and ignores), or decodes to a JSON object whose `"fixes"`
entry is the given list (`[]` when the key is absent), or decodes to a
non-object JSON value (such as `3`, `"x"` or `null`), on which `d.get` raises
`AttributeError`, which the loop does not catch. -/
inductive LineParse
  | decodeFail
  | record (fixes : List Fix)
  | nonRecord
  deriving DecidableEq

/-- The Python exceptions the embedded code can raise. -/
inductive PyErr
  | attrError
  deriving DecidableEq

/-- The line-by-line diagnostic parsing loop inside `check_and_fix`: for each
line, try to decode it and extend the accumulated fixes with the record's
`"fixes"` list; lines that raise `json.JSONDecodeError` are skipped, while a
line that decodes to a non-object raises `AttributeError` out of the whole
function. -/
def parseLines : List LineParse → Except PyErr (List Fix)
  | [] => Except.ok []
  | LineParse.decodeFail :: rest => parseLines rest
  | LineParse.nonRecord :: _ => Except.error PyErr.attrError
  | LineParse.record fs :: rest => (parseLines rest).map (fun acc => fs ++ acc)

/-- Terminal outcomes of `check_and_fix`: validator accepted (printing
`"clean after r round(s)"`, exit 0), validator rejected with no extracted
fixes (printing the validator's raw output, exit 1), or the round budget ran
out (printing `"max rounds reached"`, exit 1). -/
inductive Outcome
  | clean
  | noFixes (raw : List LineParse)
  | maxRounds
  deriving DecidableEq

/-- The formatting step `if rc==0 and formatted: src = formatted` (a Python
string is truthy exactly when it is non-empty). -/
def formatStep (rc : Int) (formatted : Buf) (src : Buf) : Buf :=
  if rc = 0 ∧ formatted ≠ [] then formatted else src

/-- The `while rounds < 10` loop of `check_and_fix`, with the validator
abstracted as a function `V` of the round number and the buffer the loop just
wrote to the backing store.  The fuel argument is `budget - rounds` at entry;
the result pairs the outcome with the final value of the `rounds` counter. -/
def loopAux (V : Nat → Buf → Int × List LineParse) :
    Nat → Nat → Buf → Except PyErr (Outcome × Nat)
  | 0, rounds, _ => Except.ok (Outcome.maxRounds, rounds)
  | fuel + 1, rounds, src =>
    if (V (rounds + 1) src).1 = 0 then Except.ok (Outcome.clean, rounds + 1)
    else
      match parseLines (V (rounds + 1) src).2 with
      | Except.error e => Except.error e
      | Except.ok fixes =>
        if fixes = [] then Except.ok (Outcome.noFixes (V (rounds + 1) src).2, rounds + 1)
        else loopAux V fuel (rounds + 1) (apply_fixes src fixes)

/-- `check_and_fix(path)`, with the formatter `F` and validator `V`
abstracted and the initial file contents passed as `src`: one formatting
pass, then at most ten validate-parse-apply rounds. -/
def check_and_fix (F : Buf → Int × Buf) (V : Nat → Buf → Int × List LineParse)
    (src : Buf) : Except PyErr (Outcome × Nat) :=
  loopAux V 10 0 (formatStep (F src).1 (F src).2 src)

/-- Splice at a (valid) natural-number offset: `s.take p ++ t ++ s.drop p`. -/
def nsplice (s : Buf) (p : Nat) (t : Buf) : Buf :=
  s.take p ++ t ++ s.drop p

/-- Build the fix object a validator record carrying position `p` and insert
text `t` contributes to `apply_fixes`. -/
def mkFix (p : Int) (t : Buf) : Fix :=
  ⟨some ⟨some t, some p⟩⟩

/-- Modelled from the spec: stable insertion by position, ascending, used by
the reference single-pass splice of section 8 (offset stability). -/
def insAsc (x : Int × Buf) : List (Int × Buf) → List (Int × Buf)
  | [] => [x]
  | y :: ys => if x.1 ≤ y.1 then x :: y :: ys else y :: insAsc x ys

/-- Modelled from the spec: stable sort by position, ascending. -/
def sortAsc : List (Int × Buf) → List (Int × Buf)
  | [] => []
  | x :: xs => insAsc x (sortAsc xs)

/-- Modelled from the spec: the single pass of the reference splice, walking
the edits in ascending position order while adding the cumulative length
`sh` of the texts already inserted to each position. -/
def refGo (src : Buf) : List (Int × Buf) → Nat → Buf
  | [], _ => src
  | (p, t) :: rest, sh => refGo (pysplice src (p + (sh : Int)) t) rest (sh + t.length)

/-- Modelled from the spec (section 8, offset stability): the reference
single-pass splice that sorts the edits by position ascending and accounts
for the cumulative shift of prior insertions. -/
def referenceSplice (src : Buf) (edits : List (Int × Buf)) : Buf :=
  refGo src (sortAsc edits) 0

/-- A validator that always rejects and whose output decodes to a single
record carrying one applicable fix (insert `"X"` at position 0). -/
def alwaysFixV : Nat → Buf → Int × List LineParse :=
  fun _ _ => (1, [LineParse.record [mkFix 0 ['X']]])

/-- A validator that always rejects and whose output is a single line that
fails structured decoding, so no fixes are ever extracted. -/
def noneV : Nat → Buf → Int × List LineParse :=
  fun _ _ => (1, [LineParse.decodeFail])

/-- A validator that always rejects, offering a single fix that carries no
`"edit"` object at all, hence is skipped by `apply_fixes`. -/
def skipV : Nat → Buf → Int × List LineParse :=
  fun _ _ => (1, [LineParse.record [Fix.mk none]])

/-- A validator that always rejects with a single output line that decodes to
a JSON non-object (such as the line `3`). -/
def badV : Nat → Buf → Int × List LineParse :=
  fun _ _ => (1, [LineParse.nonRecord])

/-- A formatter that exits cleanly and echoes its input unchanged. -/
def idF : Buf → Int × Buf :=
  fun s => (0, s)

/-- C7: applying an empty edit sequence returns the buffer unchanged. -/
theorem apply_fixes_nil_noop (src : Buf) : apply_fixes src [] = src :=
  rfl

/-- C1: evaluating `apply_fixes` on buffer `"abc"` and a single edit at
position 10 — strictly greater than the buffer length 3 — shows that the
code does not fail: Python's slice semantics silently clamp the position to
the end of the buffer and the text is appended. -/
theorem apply_fixes_oob_silently_clamps :
    apply_fixes ['a', 'b', 'c'] [mkFix 10 ['X']] = ['a', 'b', 'c', 'X'] := by
  decide

/-- C8: the controller adopts the formatter's output exactly when the
formatter exits with status 0 and its output is non-empty; in every other
case the original buffer is kept. -/
theorem formatStep_adopts_iff (rc : Int) (formatted src : Buf) :
    (rc = 0 ∧ formatted ≠ [] → formatStep rc formatted src = formatted) ∧
    (¬(rc = 0 ∧ formatted ≠ []) → formatStep rc formatted src = src) := by
  constructor
  · intro h
    simp [formatStep, h]
  · intro h
    simp only [formatStep, if_neg h]

/-- Witness for C8 at concrete inputs: a clean, non-empty formatter output is
adopted; a failing formatter leaves the buffer unchanged. -/
theorem formatStep_adopts_iff_witness :
    formatStep 0 ['x'] ['y'] = ['x'] ∧ formatStep 1 ['x'] ['y'] = ['y'] :=
  ⟨(formatStep_adopts_iff 0 ['x'] ['y']).1 (by decide),
   (formatStep_adopts_iff 1 ['x'] ['y']).2 (by decide)⟩

/-- C3: lines that fail structured decoding are indeed dropped silently
wherever they occur, but the parse of the whole blob can fail: a line that
decodes to a JSON non-object (such as the line `3`) raises an uncaught
`AttributeError` from `d.get`, aborting the entire `check_and_fix` run. -/
theorem parseLines_nonRecord_raises :
    (∀ pre post : List LineParse,
        parseLines (pre ++ LineParse.decodeFail :: post) = parseLines (pre ++ post)) ∧
    parseLines [LineParse.nonRecord] = Except.error PyErr.attrError ∧
    check_and_fix idF badV ['a'] = Except.error PyErr.attrError := by
  refine ⟨?_, rfl, rfl⟩
  intro pre post
  induction pre with
  | nil => rfl
  | cons l rest ih =>
    cases l with
    | decodeFail => simpa [parseLines] using ih
    | record fs => simp [parseLines, ih]
    | nonRecord => rfl

/-- C10: a negative `"at"` value is accepted without error and is spliced at
the Python negative-index position, counted back from the end of the
buffer. -/
theorem apply_fixes_negative_at (src t : Buf) (k : Nat) (h1 : 1 ≤ k)
    (h2 : k ≤ src.length) :
    apply_fixes src [mkFix (-(k : Int)) t] = nsplice src (src.length - k) t := by
  have hneg : ¬ (0 ≤ -(k : Int)) := by omega
  simp [apply_fixes, getInsert, mkFix, sortDesc, insDesc, pysplice, pyIndex,
    hneg, nsplice, neg_neg, Int.toNat_natCast]

/-- Witness for C10: inserting `"X"` at position `-1` of `"abc"` splices one
character before the end, giving `"abXc"`. -/
theorem apply_fixes_negative_at_witness :
    apply_fixes ['a', 'b', 'c'] [mkFix (-1) ['X']] = nsplice ['a', 'b', 'c'] 2 ['X'] ∧
    nsplice ['a', 'b', 'c'] 2 ['X'] = ['a', 'b', 'X', 'c'] :=
  ⟨apply_fixes_negative_at ['a', 'b', 'c'] ['X'] 1 (by decide) (by decide), by decide⟩

theorem pyIndex_le (n : Nat) (i : Int) : pyIndex n i ≤ n := by
  unfold pyIndex
  split <;> omega

theorem length_pysplice (s : Buf) (i : Int) (t : Buf) :
    (pysplice s i t).length = s.length + t.length := by
  have h := pyIndex_le s.length i
  simp only [pysplice, List.length_append, List.length_take, List.length_drop]
  omega

theorem foldl_pysplice_length (l : List (Int × Buf)) :
    ∀ s : Buf,
      (l.foldl (fun s pt => pysplice s pt.1 pt.2) s).length
        = s.length + (l.map (fun e => e.2.length)).sum := by
  induction l with
  | nil => intro s; simp
  | cons e rest ih =>
    intro s
    simp only [List.foldl_cons, List.map_cons, List.sum_cons, ih, length_pysplice]
    omega

theorem insDesc_perm (x : Int × Buf) (l : List (Int × Buf)) :
    (insDesc x l).Perm (x :: l) := by
  induction l with
  | nil => exact List.Perm.refl _
  | cons y ys ih =>
    by_cases h : y.1 ≤ x.1
    · simp only [insDesc, if_pos h]
      exact List.Perm.refl _
    · simp only [insDesc, if_neg h]
      exact (ih.cons y).trans (List.Perm.swap x y ys)

theorem sortDesc_perm (l : List (Int × Buf)) : (sortDesc l).Perm l := by
  induction l with
  | nil => exact List.Perm.refl _
  | cons x xs ih => exact (insDesc_perm x (sortDesc xs)).trans (ih.cons x)

theorem extract_mkFix (l : List (Int × Buf)) :
    (l.map (fun e => mkFix e.1 e.2)).filterMap getInsert = l := by
  induction l with
  | nil => rfl
  | cons e rest ih =>
    rw [List.map_cons, List.filterMap_cons]
    have hg : getInsert (mkFix e.1 e.2) = some (e.1, e.2) := rfl
    rw [hg, ih]

/-- C6: applying a sequence of insertion edits with valid positions grows the
buffer length by exactly the sum of the inserted texts' lengths, for every
relative order (`edits2` ranges over the permutations) of the edits. -/
theorem apply_fixes_length (src : Buf) (edits edits2 : List (Int × Buf))
    (hvalid : ∀ e ∈ edits, 0 ≤ e.1 ∧ e.1 ≤ (src.length : Int))
    (hperm : edits2.Perm edits) :
    (apply_fixes src (edits2.map (fun e => mkFix e.1 e.2))).length
      = src.length + (edits.map (fun e => e.2.length)).sum := by
  unfold apply_fixes
  rw [extract_mkFix, foldl_pysplice_length]
  congr 1
  exact (((sortDesc_perm edits2).trans hperm).map (fun e => e.2.length)).sum_eq

/-- Witness for C6: `"abc"` with inserts `"XY"` at 1 and `"Z"` at 0 has final
length `3 + 2 + 1 = 6`. -/
theorem apply_fixes_length_witness :
    (apply_fixes ['a', 'b', 'c']
      [mkFix 1 ['X', 'Y'], mkFix 0 ['Z']]).length = 6 :=
  apply_fixes_length ['a', 'b', 'c'] [(1, ['X', 'Y']), (0, ['Z'])]
    [(1, ['X', 'Y']), (0, ['Z'])] (by decide) (List.Perm.refl _)

theorem loopAux_rounds_le (V : Nat → Buf → Int × List LineParse) (fuel : Nat) :
    ∀ (r : Nat) (src : Buf) (o : Outcome) (n : Nat),
      loopAux V fuel r src = Except.ok (o, n) → n ≤ r + fuel := by
  induction fuel with
  | zero =>
    intro r src o n h
    simp only [loopAux, Except.ok.injEq, Prod.mk.injEq] at h
    omega
  | succ fuel ih =>
    intro r src o n h
    simp only [loopAux] at h
    split at h
    · simp only [Except.ok.injEq, Prod.mk.injEq] at h
      omega
    · split at h
      · exact absurd h (by simp)
      · split at h
        · simp only [Except.ok.injEq, Prod.mk.injEq] at h
          omega
        · have := ih (r + 1) _ o n h
          omega

theorem loopAux_maxRounds (V : Nat → Buf → Int × List LineParse)
    (h1 : ∀ m s, (V m s).1 ≠ 0)
    (h2 : ∀ m s, ∃ fs, parseLines (V m s).2 = Except.ok fs ∧ fs ≠ []) :
    ∀ (fuel r : Nat) (src : Buf),
      loopAux V fuel r src = Except.ok (Outcome.maxRounds, r + fuel) := by
  intro fuel
  induction fuel with
  | zero => intro r src; simp [loopAux]
  | succ fuel ih =>
    intro r src
    obtain ⟨fs, hp, hne⟩ := h2 (r + 1) src
    simp only [loopAux, if_neg (h1 (r + 1) src), hp, if_neg hne]
    rw [ih (r + 1) (apply_fixes src fs)]
    have hr : r + 1 + fuel = r + (fuel + 1) := by omega
    rw [hr]

/-- C4: for every formatter and validator behavior the controller's round
counter never exceeds the budget of 10; and when the validator always
rejects while always offering at least one fix, the run ends in the
max-rounds outcome after exactly 10 rounds. -/
theorem check_and_fix_halts_within_budget (F : Buf → Int × Buf)
    (V : Nat → Buf → Int × List LineParse) (src : Buf) :
    (∀ o n, check_and_fix F V src = Except.ok (o, n) → n ≤ 10) ∧
    ((∀ m s, (V m s).1 ≠ 0) →
      (∀ m s, ∃ fs, parseLines (V m s).2 = Except.ok fs ∧ fs ≠ []) →
      check_and_fix F V src = Except.ok (Outcome.maxRounds, 10)) := by
  constructor
  · intro o n h
    have := loopAux_rounds_le V 10 0 (formatStep (F src).1 (F src).2 src) o n h
    omega
  · intro h1 h2
    show loopAux V 10 0 (formatStep (F src).1 (F src).2 src) = _
    simpa using loopAux_maxRounds V h1 h2 10 0 (formatStep (F src).1 (F src).2 src)

/-- Witness for C4: a validator that always rejects with one applicable fix
drives the controller to the max-rounds outcome with final round counter
10. -/
theorem check_and_fix_halts_within_budget_witness :
    check_and_fix idF alwaysFixV ['a'] = Except.ok (Outcome.maxRounds, 10) ∧
    10 ≤ 10 := by
  have hmax := (check_and_fix_halts_within_budget idF alwaysFixV ['a']).2
    (fun m s => (by decide : (1 : Int) ≠ 0))
    (fun m s => ⟨[mkFix 0 ['X']], rfl, by decide⟩)
  exact ⟨hmax,
    (check_and_fix_halts_within_budget idF alwaysFixV ['a']).1 Outcome.maxRounds 10 hmax⟩

/-- C5: in any round where the validator exits non-zero and the parser
extracts zero fixes, the loop stops in that same round with the no-fixes
outcome carrying the validator's raw output; in particular a validator that
always rejects with zero fixes yields that outcome with round counter 1. -/
theorem rejected_without_fixes_noFixes (V : Nat → Buf → Int × List LineParse)
    (F : Buf → Int × Buf) (fuel r : Nat) (src s0 : Buf) :
    ((V (r + 1) src).1 ≠ 0 → parseLines (V (r + 1) src).2 = Except.ok [] →
      loopAux V (fuel + 1) r src
        = Except.ok (Outcome.noFixes (V (r + 1) src).2, r + 1)) ∧
    ((∀ m s, (V m s).1 ≠ 0 ∧ parseLines (V m s).2 = Except.ok []) →
      check_and_fix F V s0
        = Except.ok (Outcome.noFixes (V 1 (formatStep (F s0).1 (F s0).2 s0)).2, 1)) := by
  have key : ∀ (fuel r : Nat) (src : Buf),
      (V (r + 1) src).1 ≠ 0 → parseLines (V (r + 1) src).2 = Except.ok [] →
      loopAux V (fuel + 1) r src
        = Except.ok (Outcome.noFixes (V (r + 1) src).2, r + 1) := by
    intro fuel r src h0 hp
    simp only [loopAux, if_neg h0, hp]
    simp
  constructor
  · exact key fuel r src
  · intro h
    show loopAux V (9 + 1) 0 (formatStep (F s0).1 (F s0).2 s0) = _
    exact key 9 0 (formatStep (F s0).1 (F s0).2 s0)
      (h 1 (formatStep (F s0).1 (F s0).2 s0)).1
      (h 1 (formatStep (F s0).1 (F s0).2 s0)).2

/-- Witness for C5: a validator whose single output line never decodes makes
the controller stop after round 1 with the no-fixes outcome, surfacing the
raw output. -/
theorem rejected_without_fixes_noFixes_witness :
    loopAux noneV 10 0 ['a'] = Except.ok (Outcome.noFixes [LineParse.decodeFail], 1) ∧
    check_and_fix idF noneV ['a']
      = Except.ok (Outcome.noFixes [LineParse.decodeFail], 1) :=
  ⟨(rejected_without_fixes_noFixes noneV idF 9 0 ['a'] ['a']).1 (by decide) rfl,
   (rejected_without_fixes_noFixes noneV idF 9 0 ['a'] ['a']).2
     (fun m s => ⟨(by decide : (1 : Int) ≠ 0), rfl⟩)⟩

theorem filterMap_getInsert_nil (fixes : List Fix)
    (h : ∀ f ∈ fixes, getInsert f = none) :
    fixes.filterMap getInsert = [] := by
  induction fixes with
  | nil => rfl
  | cons f rest ih =>
    rw [List.filterMap_cons, h f (by simp)]
    exact ih (fun g hg => h g (by simp [hg]))

/-- C9: when no fix in a non-empty round carries an edit object with both an
`"insert"` and an `"at"` field, `apply_fixes` skips them all and returns the
buffer unchanged, and a validator that always rejects while offering only
such inapplicable fixes drives the controller to the max-rounds outcome (not
the no-fixes one). -/
theorem inapplicable_fixes_skipped (src : Buf) (fixes : List Fix)
    (V : Nat → Buf → Int × List LineParse) (F : Buf → Int × Buf) (s0 : Buf) :
    ((∀ f ∈ fixes, getInsert f = none) → apply_fixes src fixes = src) ∧
    ((∀ m s, (V m s).1 ≠ 0) →
      (∀ m s, ∃ fs, parseLines (V m s).2 = Except.ok fs ∧ fs ≠ [] ∧
        ∀ f ∈ fs, getInsert f = none) →
      check_and_fix F V s0 = Except.ok (Outcome.maxRounds, 10)) := by
  constructor
  · intro h
    unfold apply_fixes
    rw [filterMap_getInsert_nil fixes h]
    rfl
  · intro h1 h2
    show loopAux V 10 0 (formatStep (F s0).1 (F s0).2 s0) = _
    simpa using loopAux_maxRounds V h1
      (fun m s => (h2 m s).imp (fun fs hfs => ⟨hfs.1, hfs.2.1⟩)) 10 0
      (formatStep (F s0).1 (F s0).2 s0)

/-- Witness for C9: a fix without an `"edit"` object leaves the buffer
untouched, and a validator always offering only that fix exhausts the
budget. -/
theorem inapplicable_fixes_skipped_witness :
    apply_fixes ['a'] [Fix.mk none] = ['a'] ∧
    check_and_fix idF skipV ['a'] = Except.ok (Outcome.maxRounds, 10) :=
  ⟨(inapplicable_fixes_skipped ['a'] [Fix.mk none] skipV idF ['a']).1 (by decide),
   (inapplicable_fixes_skipped ['a'] [Fix.mk none] skipV idF ['a']).2
     (fun m s => (by decide : (1 : Int) ≠ 0))
     (fun m s => ⟨[Fix.mk none], rfl, by decide, by decide⟩)⟩

/-- Descending application at natural-number offsets: fold the splices over
the list, each against the current buffer. -/
def applyDescN (s : Buf) (l : List (Nat × Buf)) : Buf :=
  l.foldl (fun s pt => nsplice s pt.1 pt.2) s

/-- The reference single pass at natural-number offsets. -/
def refGoN (s : Buf) : List (Nat × Buf) → Nat → Buf
  | [], _ => s
  | (p, t) :: rest, sh => refGoN (nsplice s (p + sh) t) rest (sh + t.length)

/-- Forget the sign of a valid edit position. -/
def toN (e : Int × Buf) : Nat × Buf :=
  (e.1.toNat, e.2)

theorem nsplice_append (X Y t : Buf) (a : Nat) (h : X.length = a) :
    nsplice (X ++ Y) a t = X ++ t ++ Y := by
  simp [nsplice, List.take_left' h, List.drop_left' h]

theorem length_nsplice (s : Buf) (p : Nat) (t : Buf) :
    (nsplice s p t).length = s.length + t.length := by
  simp only [nsplice, List.length_append, List.length_take, List.length_drop]
  omega

theorem spliceComm (s t u : Buf) (p q : Nat) (hpq : p ≤ q) (hq : q ≤ s.length) :
    nsplice (nsplice s q u) p t = nsplice (nsplice s p t) (q + t.length) u := by
  have hp : p ≤ s.length := hpq.trans hq
  have hA : (s.take p).length = p := by rw [List.length_take]; omega
  have hB : ((s.drop p).take (q - p)).length = q - p := by
    rw [List.length_take, List.length_drop]; omega
  have hsplit : s = s.take p ++ ((s.drop p).take (q - p) ++ s.drop q) := by
    conv_lhs => rw [← List.take_append_drop p s]
    congr 1
    conv_lhs => rw [← List.take_append_drop (q - p) (s.drop p)]
    congr 1
    rw [List.drop_drop]
    congr 1
    omega
  set A := s.take p with hAdef
  set B := (s.drop p).take (q - p) with hBdef
  set C := s.drop q with hCdef
  have h1 : nsplice s q u = (A ++ B) ++ u ++ C := by
    conv_lhs => rw [show s = (A ++ B) ++ C from by rw [hsplit]; simp]
    exact nsplice_append (A ++ B) C u q (by rw [List.length_append, hA, hB]; omega)
  have h2 : nsplice ((A ++ B) ++ u ++ C) p t = A ++ t ++ (B ++ (u ++ C)) := by
    conv_lhs => rw [show (A ++ B) ++ u ++ C = A ++ (B ++ (u ++ C)) from by simp]
    exact nsplice_append A (B ++ (u ++ C)) t p hA
  have h3 : nsplice s p t = A ++ t ++ (B ++ C) := by
    conv_lhs => rw [hsplit]
    exact nsplice_append A (B ++ C) t p hA
  have h4 : nsplice (A ++ t ++ (B ++ C)) (q + t.length) u
      = (A ++ t ++ B) ++ u ++ C := by
    conv_lhs => rw [show A ++ t ++ (B ++ C) = (A ++ t ++ B) ++ C from by simp]
    exact nsplice_append (A ++ t ++ B) C u (q + t.length)
      (by simp only [List.length_append, hA, hB]; omega)
  rw [h1, h2, h3, h4]
  simp

theorem applyDescN_shift (p : Nat) (t : Buf) (m : List (Nat × Buf)) :
    ∀ s : Buf, (∀ e ∈ m, p ≤ e.1 ∧ e.1 ≤ s.length) → p ≤ s.length →
      nsplice (applyDescN s m) p t
        = applyDescN (nsplice s p t) (m.map (fun e => (e.1 + t.length, e.2))) := by
  induction m with
  | nil => intro s _ _; rfl
  | cons e m2 ih =>
    intro s hm hp
    obtain ⟨hpe, hel⟩ := hm e (by simp)
    rw [List.map_cons]
    rw [show applyDescN s (e :: m2) = applyDescN (nsplice s e.1 e.2) m2 from rfl]
    rw [show applyDescN (nsplice s p t) ((e.1 + t.length, e.2) :: m2.map (fun e => (e.1 + t.length, e.2)))
          = applyDescN (nsplice (nsplice s p t) (e.1 + t.length) e.2)
              (m2.map (fun e => (e.1 + t.length, e.2))) from rfl]
    rw [ih (nsplice s e.1 e.2)
      (fun x hx => ⟨(hm x (by simp [hx])).1,
        le_trans (hm x (by simp [hx])).2 (by rw [length_nsplice]; omega)⟩)
      (le_trans hp (by rw [length_nsplice]; omega))]
    rw [spliceComm s t e.2 p e.1 hpe hel]

theorem applyDesc_shifted_eq_refGoN (l : List (Nat × Buf)) :
    ∀ (s : Buf) (sh : Nat),
      l.Pairwise (fun a b => a.1 ≤ b.1) →
      (∀ e ∈ l, e.1 + sh ≤ s.length) →
      applyDescN s ((l.map (fun e => (e.1 + sh, e.2))).reverse) = refGoN s l sh := by
  induction l with
  | nil => intro s sh _ _; rfl
  | cons e rest ih =>
    rcases e with ⟨p, t⟩
    intro s sh hpair hval
    rw [List.map_cons, List.reverse_cons]
    have hfold : applyDescN s ((rest.map (fun e => (e.1 + sh, e.2))).reverse ++ [(p + sh, t)])
        = nsplice (applyDescN s ((rest.map (fun e => (e.1 + sh, e.2))).reverse)) (p + sh) t := by
      simp [applyDescN, List.foldl_append, nsplice]
    rw [hfold]
    have hhead : ∀ x ∈ rest, p ≤ x.1 := (List.pairwise_cons.mp hpair).1
    have hps : p + sh ≤ s.length := hval (p, t) (by simp)
    rw [applyDescN_shift (p + sh) t ((rest.map (fun e => (e.1 + sh, e.2))).reverse) s
      (by
        intro x hx
        rw [List.mem_reverse] at hx
        obtain ⟨y, hy, rfl⟩ := List.mem_map.mp hx
        exact ⟨by have := hhead y hy; omega, hval y (by simp [hy])⟩)
      hps]
    rw [List.map_reverse]
    have hcomp : ((rest.map (fun e => (e.1 + sh, e.2))).map (fun e => (e.1 + t.length, e.2)))
        = rest.map (fun e => (e.1 + (sh + t.length), e.2)) := by
      rw [List.map_map]
      congr 1
      funext x
      simp only [Function.comp_apply]
      rw [Nat.add_assoc]
    rw [hcomp]
    rw [ih (nsplice s (p + sh) t) (sh + t.length) (List.pairwise_cons.mp hpair).2
      (fun x hx => by
        have := hval x (by simp [hx])
        rw [length_nsplice]
        omega)]
    rfl

theorem pysplice_toNat (s : Buf) (i : Int) (t : Buf) (h : 0 ≤ i) :
    pysplice s i t = nsplice s i.toNat t := by
  unfold pysplice nsplice pyIndex
  rw [if_pos h]
  by_cases hle : i.toNat ≤ s.length
  · rw [min_eq_left hle]
  · push_neg at hle
    rw [min_eq_right (le_of_lt hle), List.take_length, List.drop_length,
      List.take_of_length_le (le_of_lt hle), List.drop_eq_nil_of_le (le_of_lt hle)]

theorem foldl_pysplice_toNat (l : List (Int × Buf)) :
    ∀ s : Buf, (∀ e ∈ l, 0 ≤ e.1) →
      l.foldl (fun s pt => pysplice s pt.1 pt.2) s = applyDescN s (l.map toN) := by
  induction l with
  | nil => intro s _; rfl
  | cons e rest ih =>
    intro s h
    rw [List.foldl_cons, List.map_cons]
    rw [show applyDescN s (toN e :: rest.map toN)
          = applyDescN (nsplice s e.1.toNat e.2) (rest.map toN) from rfl]
    rw [pysplice_toNat s e.1 e.2 (h e (by simp))]
    exact ih _ (fun x hx => h x (by simp [hx]))

theorem refGo_toNat (l : List (Int × Buf)) :
    ∀ (s : Buf) (sh : Nat), (∀ e ∈ l, 0 ≤ e.1) →
      refGo s l sh = refGoN s (l.map toN) sh := by
  induction l with
  | nil => intro s sh _; rfl
  | cons e rest ih =>
    rcases e with ⟨p, t⟩
    intro s sh h
    have hp : (0 : Int) ≤ p := h (p, t) (by simp)
    rw [show refGo s ((p, t) :: rest) sh
          = refGo (pysplice s (p + (sh : Int)) t) rest (sh + t.length) from rfl]
    rw [show refGoN s (((p, t) :: rest).map toN) sh
          = refGoN (nsplice s (p.toNat + sh) t) (rest.map toN) (sh + t.length) from rfl]
    rw [pysplice_toNat s (p + (sh : Int)) t (by omega)]
    rw [show (p + (sh : Int)).toNat = p.toNat + sh from by omega]
    exact ih _ (sh + t.length) (fun x hx => h x (by simp [hx]))

theorem insAsc_perm (x : Int × Buf) (l : List (Int × Buf)) :
    (insAsc x l).Perm (x :: l) := by
  induction l with
  | nil => exact List.Perm.refl _
  | cons y ys ih =>
    by_cases h : x.1 ≤ y.1
    · simp only [insAsc, if_pos h]
      exact List.Perm.refl _
    · simp only [insAsc, if_neg h]
      exact (ih.cons y).trans (List.Perm.swap x y ys)

theorem sortAsc_perm (l : List (Int × Buf)) : (sortAsc l).Perm l := by
  induction l with
  | nil => exact List.Perm.refl _
  | cons x xs ih => exact (insAsc_perm x (sortAsc xs)).trans (ih.cons x)

theorem pairwise_insAsc (x : Int × Buf) (l : List (Int × Buf))
    (h : l.Pairwise (fun a b => a.1 ≤ b.1)) :
    (insAsc x l).Pairwise (fun a b => a.1 ≤ b.1) := by
  induction l with
  | nil => simp [insAsc]
  | cons y ys ih =>
    rw [List.pairwise_cons] at h
    by_cases hxy : x.1 ≤ y.1
    · simp only [insAsc, if_pos hxy]
      rw [List.pairwise_cons]
      refine ⟨?_, List.pairwise_cons.mpr h⟩
      intro b hb
      rcases List.mem_cons.mp hb with rfl | hbys
      · exact hxy
      · exact le_trans hxy (h.1 b hbys)
    · simp only [insAsc, if_neg hxy]
      rw [List.pairwise_cons]
      refine ⟨?_, ih h.2⟩
      intro b hb
      rcases List.mem_cons.mp ((insAsc_perm x ys).mem_iff.mp hb) with rfl | hbys
      · omega
      · exact h.1 b hbys

theorem sortAsc_pairwise (l : List (Int × Buf)) :
    (sortAsc l).Pairwise (fun a b => a.1 ≤ b.1) := by
  induction l with
  | nil => exact List.Pairwise.nil
  | cons x xs ih => exact pairwise_insAsc x (sortAsc xs) ih

theorem pairwise_insDesc (x : Int × Buf) (l : List (Int × Buf))
    (h : l.Pairwise (fun a b => b.1 ≤ a.1)) :
    (insDesc x l).Pairwise (fun a b => b.1 ≤ a.1) := by
  induction l with
  | nil => simp [insDesc]
  | cons y ys ih =>
    rw [List.pairwise_cons] at h
    by_cases hxy : y.1 ≤ x.1
    · simp only [insDesc, if_pos hxy]
      rw [List.pairwise_cons]
      refine ⟨?_, List.pairwise_cons.mpr h⟩
      intro b hb
      rcases List.mem_cons.mp hb with rfl | hbys
      · exact hxy
      · exact le_trans (h.1 b hbys) hxy
    · simp only [insDesc, if_neg hxy]
      rw [List.pairwise_cons]
      refine ⟨?_, ih h.2⟩
      intro b hb
      rcases List.mem_cons.mp ((insDesc_perm x ys).mem_iff.mp hb) with rfl | hbys
      · omega
      · exact h.1 b hbys

theorem sortDesc_pairwise (l : List (Int × Buf)) :
    (sortDesc l).Pairwise (fun a b => b.1 ≤ a.1) := by
  induction l with
  | nil => exact List.Pairwise.nil
  | cons x xs ih => exact pairwise_insDesc x (sortDesc xs) ih

theorem pairwise_lt_of_le_ne (l : List (Int × Buf))
    (hle : l.Pairwise (fun a b => a.1 ≤ b.1))
    (hne : l.Pairwise (fun a b => a.1 ≠ b.1)) :
    l.Pairwise (fun a b => a.1 < b.1) := by
  induction l with
  | nil => exact List.Pairwise.nil
  | cons x xs ih =>
    rw [List.pairwise_cons] at hle hne ⊢
    exact ⟨fun b hb => lt_of_le_of_ne (hle.1 b hb) (hne.1 b hb), ih hle.2 hne.2⟩

theorem pairwise_gt_of_ge_ne (l : List (Int × Buf))
    (hge : l.Pairwise (fun a b => b.1 ≤ a.1))
    (hne : l.Pairwise (fun a b => a.1 ≠ b.1)) :
    l.Pairwise (fun a b => b.1 < a.1) := by
  induction l with
  | nil => exact List.Pairwise.nil
  | cons x xs ih =>
    rw [List.pairwise_cons] at hge hne ⊢
    exact ⟨fun b hb => lt_of_le_of_ne (hge.1 b hb) (hne.1 b hb).symm, ih hge.2 hne.2⟩

instance : IsAntisymm (Int × Buf) (fun a b => a.1 < b.1) :=
  ⟨fun a b h h2 => absurd (h.trans h2) (lt_irrefl _)⟩

/-- With pairwise-distinct positions, the stable descending sort of any
permutation of the edits is the reverse of the stable ascending sort. -/
theorem sortDesc_eq_reverse_sortAsc (edits edits2 : List (Int × Buf))
    (hnodup : edits.Pairwise (fun a b => a.1 ≠ b.1))
    (hperm : edits2.Perm edits) :
    sortDesc edits2 = (sortAsc edits).reverse := by
  have hpermA : ((sortDesc edits2).reverse).Perm (sortAsc edits) :=
    (((sortDesc edits2).reverse_perm.trans (sortDesc_perm edits2)).trans hperm).trans
      (sortAsc_perm edits).symm
  have hne2 : (sortDesc edits2).Pairwise (fun a b => a.1 ≠ b.1) :=
    ((sortDesc_perm edits2).pairwise_iff (fun h => Ne.symm h)).mpr
      ((hperm.pairwise_iff (fun h => Ne.symm h)).mpr hnodup)
  have hneA : (sortAsc edits).Pairwise (fun a b => a.1 ≠ b.1) :=
    ((sortAsc_perm edits).pairwise_iff (fun h => Ne.symm h)).mpr hnodup
  have hs1 : ((sortDesc edits2).reverse).Pairwise (fun a b => a.1 < b.1) := by
    rw [List.pairwise_reverse]
    exact pairwise_gt_of_ge_ne _ (sortDesc_pairwise edits2) hne2
  have hs2 : (sortAsc edits).Pairwise (fun a b => a.1 < b.1) :=
    pairwise_lt_of_le_ne _ (sortAsc_pairwise edits) hneA
  have := List.eq_of_perm_of_sorted hpermA hs1 hs2
  rw [← this, List.reverse_reverse]

/-- C2: for insertion edits with valid, pairwise-distinct positions (the
spec's `p1 < p2` setting; identical positions are the accepted ambiguity of
its section 9), `apply_fixes` — descending order, each splice against the
current buffer — produces the same final buffer as the reference single-pass
splice with cumulative shift, for every permutation `edits2` of the edits;
and concretely `"abc"` with inserts `"Y"` at 0 and `"Z"` at 3 yields
`"YabcZ"`. -/
theorem apply_fixes_refines_reference (src : Buf) (edits edits2 : List (Int × Buf)) :
    ((∀ e ∈ edits, 0 ≤ e.1 ∧ e.1 ≤ (src.length : Int)) →
      edits.Pairwise (fun a b => a.1 ≠ b.1) →
      edits2.Perm edits →
      apply_fixes src (edits2.map (fun e => mkFix e.1 e.2)) = referenceSplice src edits) ∧
    apply_fixes ['a', 'b', 'c'] [mkFix 0 ['Y'], mkFix 3 ['Z']]
      = ['Y', 'a', 'b', 'c', 'Z'] := by
  constructor
  · intro hvalid hnodup hperm
    unfold apply_fixes referenceSplice
    rw [extract_mkFix]
    rw [sortDesc_eq_reverse_sortAsc edits edits2 hnodup hperm]
    have hmemA : ∀ e ∈ sortAsc edits, 0 ≤ e.1 ∧ e.1 ≤ (src.length : Int) :=
      fun e he => hvalid e ((sortAsc_perm edits).subset he)
    rw [foldl_pysplice_toNat ((sortAsc edits).reverse) src
      (fun e he => (hmemA e (List.mem_reverse.mp he)).1)]
    rw [refGo_toNat (sortAsc edits) src 0 (fun e he => (hmemA e he).1)]
    rw [List.map_reverse]
    have hpairN : ((sortAsc edits).map toN).Pairwise (fun a b => a.1 ≤ b.1) := by
      refine List.Pairwise.map toN ?_ (sortAsc_pairwise edits)
      intro a b hab
      exact Int.toNat_le_toNat hab
    have hvalN : ∀ e ∈ (sortAsc edits).map toN, e.1 + 0 ≤ src.length := by
      intro e he
      obtain ⟨y, hy, rfl⟩ := List.mem_map.mp he
      have hy2 := (hmemA y hy).2
      simp only [toN]
      omega
    have hmain := applyDesc_shifted_eq_refGoN ((sortAsc edits).map toN) src 0 hpairN hvalN
    rw [show (((sortAsc edits).map toN).map (fun e => (e.1 + 0, e.2)))
          = (sortAsc edits).map toN from by simp] at hmain
    exact hmain
  · decide

/-- Witness for C2: the `"abc"` scenario, with the two edits supplied in the
opposite (ascending-position) order, still refines the reference splice. -/
theorem apply_fixes_refines_reference_witness :
    apply_fixes ['a', 'b', 'c'] [mkFix 3 ['Z'], mkFix 0 ['Y']]
      = referenceSplice ['a', 'b', 'c'] [(0, ['Y']), (3, ['Z'])] :=
  (apply_fixes_refines_reference ['a', 'b', 'c'] [(0, ['Y']), (3, ['Z'])]
    [(3, ['Z']), (0, ['Y'])]).1 (by decide) (by decide)
    (List.Perm.swap (0, ['Y']) (3, ['Z']) [])

end LlmAutofix
